import Mathlib

/-!
Verification of the deterministic page-clustering engine of the repository
(src/china_pipeline/grouping.py) and its companion text-cleaning step
(src/pipeline_strict.py).

Shallow embedding conventions:
* Python `datetime` values are modelled as rationals (seconds on the real
  timeline); `datetime` subtraction / `total_seconds()` becomes rational
  subtraction.  `float` arithmetic is modelled exactly by `ℚ`.
* The Unicode tables used by the source through `unicodedata.category`
  (word characters) and `str.casefold` live outside the repository, so the
  tokenizer is parameterised by a `CharTables` record carrying the
  word-character classifier and the case-folding map; every theorem holds
  for an arbitrary `CharTables`, and witnesses instantiate it with the
  ASCII tables.  Likewise the Unicode decimal-digit table behind the
  regex `\d` and `int` is a `DigitTable` parameter of the text-cleaning
  model, so its theorems hold for the true Nd table as well.
* File-system effects (EXIF reading, mtime, the override file) are
  modelled as explicit inputs: oracle functions `String → Option ℚ` for
  timestamps, and an `OverrideInput` value describing the parsed content
  of the override file (absent, unparseable, or a `break_after` list).
-/

namespace ChinaPipeline

/-- External Unicode tables used by `_tokenize` in grouping.py:
`isWordChar` stands for `unicodedata.category(ch)[0] in ("L", "N")` and
`caseFold` for `str.casefold`; both are parameters of the model. -/
structure CharTables where
  isWordChar : Char → Bool
  caseFold : String → String

/-- ASCII instantiation of the external tables, used by concrete witnesses. -/
def asciiTables : CharTables :=
  { isWordChar := Char.isAlphanum
    caseFold := fun s => String.mk (s.data.map Char.toLower) }

/-- grouping.py `Page` dataclass.  `timestamp` is the resolved capture time
in seconds (rational model of `datetime`), `None` when unavailable. -/
structure Page where
  image_path : String
  base : String
  german_txt_path : String
  timestamp : Option ℚ
  text : String
deriving DecidableEq

/-- grouping.py `_tokenize` inner loop: `buf` is the reversed current run of
word characters; a token is emitted (case-folded) when the run ends. -/
def tokenizeAux (T : CharTables) : List Char → List Char → List String
  | [], buf => if buf.isEmpty then [] else [T.caseFold (String.mk buf.reverse)]
  | c :: rest, buf =>
    if T.isWordChar c then
      tokenizeAux T rest (c :: buf)
    else if buf.isEmpty then
      tokenizeAux T rest []
    else
      T.caseFold (String.mk buf.reverse) :: tokenizeAux T rest []

/-- grouping.py `_tokenize`: Unicode-aware tokenizer; maximal runs of word
characters, each case-folded. -/
def _tokenize (T : CharTables) (text : String) : List String :=
  tokenizeAux T text.data []

/-- grouping.py `jaccard_similarity`: Jaccard index of the two token sets,
`0.0` when either set is empty, guarding the division. -/
def jaccard_similarity (T : CharTables) (a b : String) : ℚ :=
  if (_tokenize T a).toFinset = ∅ ∨ (_tokenize T b).toFinset = ∅ then 0
  else if ((_tokenize T a).toFinset ∪ (_tokenize T b).toFinset).card = 0 then 0
  else (((_tokenize T a).toFinset ∩ (_tokenize T b).toFinset).card : ℚ) /
    (((_tokenize T a).toFinset ∪ (_tokenize T b).toFinset).card : ℚ)

/-- grouping.py `_time_gap_seconds`: `None` when either timestamp is
missing, otherwise `(cur - prev).total_seconds()`. -/
def _time_gap_seconds (prev cur : Option ℚ) : Option ℚ :=
  match prev, cur with
  | some p, some c => some (c - p)
  | _, _ => none

/-- The break condition of grouping.py `propose_breakpoints` line 140:
`(gap is not None and gap > time_gap_threshold) or sim < sim_threshold`. -/
def breakCond (T : CharTables) (tg : ℤ) (st : ℚ) (prev cur : Page) : Bool :=
  (match _time_gap_seconds prev.timestamp cur.timestamp with
   | some g => decide ((tg : ℚ) < g)
   | none => false)
  || decide (jaccard_similarity T prev.text cur.text < st)

/-- The loop of `propose_breakpoints`: `prev` is the immediately preceding
page, `i` the index of the head of `rest` in the original sequence. -/
def proposeAux (T : CharTables) (tg : ℤ) (st : ℚ) :
    Page → List Page → Nat → List Nat
  | _, [], _ => []
  | prev, cur :: rest, i =>
    if breakCond T tg st prev cur then
      i :: proposeAux T tg st cur rest (i + 1)
    else
      proposeAux T tg st cur rest (i + 1)

/-- grouping.py `propose_breakpoints`: indices `i` where a break is proposed
between `pages[i-1]` and `pages[i]`. -/
def propose_breakpoints (T : CharTables) (pages : List Page) (tg : ℤ) (st : ℚ) :
    List Nat :=
  match pages with
  | [] => []
  | p :: rest => proposeAux T tg st p rest 1

/-- Model of Python `list.sort()` / `sorted` on integer lists (any correct
sort produces the same ascending list). -/
def sortNat (l : List Nat) : List Nat := List.insertionSort (fun a b => a ≤ b) l

/-- Parsed content of the overrides file as seen by grouping.py
`apply_overrides`: no path given or file absent; JSON that fails to parse
into the expected shape; or a parsed `break_after` list of base ids. -/
inductive OverrideInput where
  | noFile : OverrideInput
  | parseFail : OverrideInput
  | ok : List String → OverrideInput
deriving DecidableEq

/-- grouping.py line 159 `name_to_index = dict-comprehension`: a Python dict
comprehension keeps the last index for a repeated base. -/
def name_to_index (pages : List Page) (base : String) : Option Nat :=
  ((pages.enum.filter (fun x => x.2.base == base)).map (fun x => x.1)).getLast?

/-- One iteration of the `for base in forced_after` loop of
`apply_overrides`: append `idx+1` when in range and not already present. -/
def overrideStep (pages : List Page) (bs : List Nat) (base : String) : List Nat :=
  match name_to_index pages base with
  | some idx =>
    if idx + 1 ≤ pages.length - 1 ∧ (idx + 1) ∉ bs then bs ++ [idx + 1] else bs
  | none => bs

/-- grouping.py `apply_overrides`.  Iterating over the Python set
`forced_after` is modelled as a fold over the parsed list: the membership
test before each append makes the result independent of iteration order,
and duplicate entries are no-ops. -/
def apply_overrides (breaks : List Nat) (pages : List Page)
    (ov : OverrideInput) : List Nat :=
  match ov with
  | .noFile => breaks
  | .parseFail => breaks
  | .ok bases => sortNat (bases.foldl (overrideStep pages) breaks)

/-- Zero-pad a numeral to width 4: Python `f-string` format `04d`
(for non-negative arguments). -/
def pad4 (n : Nat) : String :=
  let s := toString n
  if 4 ≤ s.length then s else String.mk (List.replicate (4 - s.length) '0' ++ s.data)

/-- grouping.py line 183 group id: `L` followed by the zero-padded counter. -/
def groupId (gid : Nat) : String := "L" ++ pad4 gid

/-- The per-page record emitted into a group's `pages` list (grouping.py
lines 186-194).  The `timestamp.isoformat()` rendering is kept as the
timestamp value itself; the ISO string is an injective presentation of it. -/
structure PageMeta where
  image_path : String
  base : String
  german_txt_path : String
  timestamp : Option ℚ
deriving DecidableEq

/-- Projection of a `Page` to its emitted metadata record. -/
def pageMeta (pg : Page) : PageMeta :=
  { image_path := pg.image_path, base := pg.base,
    german_txt_path := pg.german_txt_path, timestamp := pg.timestamp }

/-- A group dict as built by `group_pages`. -/
structure Group where
  id : String
  pages : List PageMeta
deriving DecidableEq

/-- Python slice `pages[s:t]` for natural bounds. -/
def sliceL (l : List α) (s t : Nat) : List α := (l.drop s).take (t - s)

/-- Proof device for reasoning about `group_pages`: the list of segments of
`l` cut at the interior boundaries `cs` between the outer bounds `s` and
`t`.  For sorted in-range boundaries this is exactly the page lists of the
produced groups. -/
def fence (l : List α) : Nat → List Nat → Nat → List (List α)
  | s, [], t => [sliceL l s t]
  | s, c :: cs, t => sliceL l s c :: fence l c cs t

/-- The boundary walk of grouping.py `group_pages`: skip any boundary
`b <= start`, otherwise emit the segment `pages[start:b]` and advance. -/
def groupLoop (pages : List Page) : List Nat → Nat → Nat → List Group
  | [], _, _ => []
  | b :: rest, start, gid =>
    if b ≤ start then groupLoop pages rest start gid
    else
      { id := groupId gid, pages := (sliceL pages start b).map pageMeta }
        :: groupLoop pages rest b (gid + 1)

/-- grouping.py `group_pages`: walk `sorted(set(breaks)) + [len(pages)]`. -/
def group_pages (pages : List Page) (breaks : List Nat) : List Group :=
  groupLoop pages (sortNat breaks.dedup ++ [pages.length]) 0 1

/-- Model of `os.path.basename`: the part after the last `/`. -/
def basenamePosix (p : String) : String :=
  String.mk ((p.data.reverse.takeWhile (fun c => c ≠ '/')).reverse)

/-- Model of `os.path.splitext(...)[0]` on a basename: drop the extension at
the last dot, except that leading dots never start an extension. -/
def splitextStem (name : String) : String :=
  let cs := name.data
  let lead := cs.takeWhile (fun c => c = '.')
  let rest := cs.drop lead.length
  if rest.any (fun c => c = '.') then
    String.mk (lead ++ ((rest.reverse.dropWhile (fun c => c ≠ '.')).reverse).dropLast)
  else name

/-- The sort key order of grouping.py line 113:
`((pg.timestamp or datetime.min), pg.base)` compared lexicographically.
A missing timestamp compares as `datetime.min`, below every resolvable
capture time. -/
def tsKeyLE : Option ℚ → Option ℚ → String → String → Prop
  | none, none, s, t => s < t ∨ s = t
  | none, some _, _, _ => True
  | some _, none, _, _ => False
  | some x, some y, s, t => x < y ∨ (x = y ∧ (s < t ∨ s = t))

instance (x y : Option ℚ) (s t : String) : Decidable (tsKeyLE x y s t) := by
  cases x <;> cases y <;> simp only [tsKeyLE] <;> infer_instance

/-- Key order on pages for the stability sort. -/
def pageKeyLE (a b : Page) : Prop := tsKeyLE a.timestamp b.timestamp a.base b.base

instance : DecidableRel pageKeyLE := fun a b =>
  inferInstanceAs (Decidable (tsKeyLE a.timestamp b.timestamp a.base b.base))

/-- grouping.py `build_pages`: construct a page per image path and sort by
(timestamp-or-min, base).  `exif` and `mtime` are the timestamp oracles
(`_read_exif_datetime` and `_file_mtime_datetime`); the dictionaries are
modelled as partial maps. -/
def build_pages (exif mtime : String → Option ℚ) (image_paths : List String)
    (german_text_by_base german_path_by_base : String → Option String) :
    List Page :=
  let pages := image_paths.map (fun p =>
    let base := splitextStem (basenamePosix p)
    { image_path := p
      base := base
      german_txt_path := (german_path_by_base base).getD ""
      timestamp := (exif p).orElse (fun _ => mtime p)
      text := (german_text_by_base base).getD "" : Page })
  List.insertionSort pageKeyLE pages

/-- pipeline_strict.py `_strip_ctrl` keep-condition:
`ch in ("\n", "\r", "\t") or ord(ch) >= 32`. -/
def allowedCtrl (c : Char) : Bool :=
  c = '\n' || c = '\r' || c = '\t' || decide (32 ≤ c.toNat)

/-- pipeline_strict.py `_strip_ctrl`. -/
def _strip_ctrl (s : String) : String := String.mk (s.data.filter allowedCtrl)

/-- The line-boundary characters of Python `str.splitlines`. -/
def isLineBoundary (c : Char) : Bool :=
  c = '\n' || c = '\r' ||
  decide (c.toNat = 0x0b) || decide (c.toNat = 0x0c) ||
  decide (c.toNat = 0x1c) || decide (c.toNat = 0x1d) || decide (c.toNat = 0x1e) ||
  decide (c.toNat = 0x85) || decide (c.toNat = 0x2028) || decide (c.toNat = 0x2029)

/-- Python `str.splitlines` loop: `buf` is the reversed current line;
`\r\n` counts as a single boundary; a final line without terminator is
kept only when non-empty. -/
def splitlinesAux : List Char → List Char → List String
  | [], buf => if buf.isEmpty then [] else [String.mk buf.reverse]
  | c :: rest, buf =>
    if c = '\r' then
      match rest with
      | c2 :: rest2 =>
        if c2 = '\n' then String.mk buf.reverse :: splitlinesAux rest2 []
        else String.mk buf.reverse :: splitlinesAux (c2 :: rest2) []
      | [] => [String.mk buf.reverse]
    else if isLineBoundary c then
      String.mk buf.reverse :: splitlinesAux rest []
    else
      splitlinesAux rest (c :: buf)

/-- Python `str.splitlines`. -/
def splitlinesPy (s : String) : List String := splitlinesAux s.data []

/-- Python `\s` for `str` patterns: the Unicode whitespace set
(`str.isspace`). -/
def isPySpace (c : Char) : Bool :=
  let n := c.toNat
  decide ((9 ≤ n ∧ n ≤ 13) ∨ (28 ≤ n ∧ n ≤ 31) ∨ n = 32 ∨ n = 0x85 ∨ n = 0xa0 ∨
    n = 0x1680 ∨ (0x2000 ≤ n ∧ n ≤ 0x200a) ∨ n = 0x2028 ∨ n = 0x2029 ∨
    n = 0x202f ∨ n = 0x205f ∨ n = 0x3000)

/-- External Unicode decimal-digit table used by the source through the
`str`-pattern regex `\d` (any category-Nd character) and `int` (which
parses such digits by their numeric value): `val c` is `some v` exactly
when `c` is a decimal digit of value `v` (0-9).  Like `CharTables`, the
table lives outside the repository, so it is a parameter of the model and
every theorem holds for an arbitrary table, the true Nd table included;
witnesses instantiate it with the ASCII digits. -/
structure DigitTable where
  val : Char → Option Nat

/-- ASCII instantiation of the digit table, used by concrete witnesses. -/
def asciiDigits : DigitTable :=
  { val := fun c =>
      if 48 ≤ c.toNat ∧ c.toNat ≤ 57 then some (c.toNat - 48) else none }

/-- Regex `\d`: membership in the decimal-digit table. -/
def isDigitCh (D : DigitTable) (c : Char) : Bool := (D.val c).isSome

/-- Python `int` on a string of decimal digits: positional base-10 value of
the digits' values (the default is never used on a `\d`-matched group). -/
def digitsToNat (D : DigitTable) (ds : List Char) : Nat :=
  ds.foldl (fun acc c => acc * 10 + (D.val c).getD 0) 0

/-- Continuation of the anchored match once the leading `\s*` run and the
maximal digit run have been isolated: requires 1-4 digits, then `[.)]`,
then at least one whitespace character, consuming the maximal whitespace
run (`\s+` is greedy and last in the pattern). -/
def matchAfterDigits (D : DigitTable) (digits : List Char) :
    List Char → Option (Nat × List Char)
  | c :: rest =>
    if 1 ≤ digits.length ∧ digits.length ≤ 4 then
      if c = '.' ∨ c = ')' then
        match rest with
        | d :: _ =>
          if isPySpace d then
            some (digitsToNat D digits, rest.dropWhile isPySpace)
          else none
        | [] => none
      else none
    else none
  | [] => none

/-- Anchored match of pipeline_strict.py line 134 pattern
`^\s*(\d{1,4})[.)]\s+` against a line: returns the parsed group-1 number
and the remainder of the line after the whole (greedy) match.  A digit run
longer than 4 fails: every shorter backtracking split leaves a digit where
`[.)]` is required. -/
def matchNumbering (D : DigitTable) (line : List Char) :
    Option (Nat × List Char) :=
  matchAfterDigits D ((line.dropWhile isPySpace).takeWhile (isDigitCh D))
    ((line.dropWhile isPySpace).dropWhile (isDigitCh D))

/-- `pattern.sub("", ln)`: the pattern is anchored, so at most the single
leading match is removed. -/
def stripNumbering (D : DigitTable) (line : List Char) : List Char :=
  match matchNumbering D line with
  | some x => x.2
  | none => line

/-- State of the longest-run scan of `_clean_leading_numbering`. -/
structure RunState where
  longest : Nat
  run : Nat
  last : Option Nat
deriving DecidableEq

/-- One line of the longest-sequential-run detection loop
(pipeline_strict.py lines 139-156). -/
def runStep (st : RunState) : Option Nat → RunState
  | some n =>
    match st.last with
    | none =>
      if n = 1 ∨ n = 2 then { longest := st.longest, run := 1, last := some n }
      else { longest := max st.longest st.run, run := 0, last := none }
    | some l =>
      if n = l + 1 then { longest := st.longest, run := st.run + 1, last := some n }
      else if n = 1 ∨ n = 2 then
        { longest := max st.longest st.run, run := 1, last := some n }
      else { longest := max st.longest st.run, run := 0, last := none }
  | none => { longest := max st.longest st.run, run := 0, last := none }

/-- Longest sequential numbering run over a list of lines, including the
final `max(longest_run, run)`. -/
def longestRun (D : DigitTable) (lines : List (List Char)) : Nat :=
  let st := lines.foldl
    (fun st ln => runStep st (Option.map Prod.fst (matchNumbering D ln)))
    { longest := 0, run := 0, last := none }
  max st.longest st.run

/-- Python `"\n".join(...)` at the character level. -/
def joinLines : List (List Char) → List Char
  | [] => []
  | [l] => l
  | l :: l2 :: ls => l ++ '\n' :: joinLines (l2 :: ls)

/-- pipeline_strict.py `_clean_leading_numbering`: `text` is first
control-stripped, split into lines, and the numbering removed from every
line exactly when the longest sequential run reaches 4. -/
def _clean_leading_numbering (D : DigitTable) (text : String) : String :=
  if 4 ≤ longestRun D ((splitlinesPy (_strip_ctrl text)).map String.data) then
    String.mk (joinLines
      (((splitlinesPy (_strip_ctrl text)).map String.data).map
        (stripNumbering D)))
  else _strip_ctrl text

/-- The per-group concatenated German text of pipeline_strict.py `main`
lines 287-293: the cleaned text of each page of the group, joined with no
separator.  `texts` maps a base id to its raw transcription
(`german_text_by_base`, defaulting to the empty string). -/
def group_de_text (D : DigitTable) (texts : String → String) (g : Group) :
    String :=
  String.join (g.pages.map (fun p => _clean_leading_numbering D (texts p.base)))

/-- The pure pipeline of pipeline_strict.py `main` lines 272-275 plus the
per-group text assembly: build pages, propose breakpoints, apply overrides,
group, and concatenate each group's cleaned text. -/
def run_pipeline (T : CharTables) (D : DigitTable)
    (exif mtime : String → Option ℚ)
    (image_paths : List String) (gtext gpath : String → Option String)
    (tg : ℤ) (st : ℚ) (ov : OverrideInput) :
    List Group × List (String × String) :=
  let pages := build_pages exif mtime image_paths gtext gpath
  let breaks := propose_breakpoints T pages tg st
  let breaks2 := apply_overrides breaks pages ov
  let groups := group_pages pages breaks2
  (groups, groups.map (fun g =>
    (g.id, group_de_text D (fun b => (gtext b).getD "") g)))

/-- Adjacent-pair bound used to state the single-group mode: whenever both
timestamps are present, the gap is at most `tg` seconds. -/
def gapWithin (tg : ℤ) (a b : Page) : Bool :=
  match _time_gap_seconds a.timestamp b.timestamp with
  | some g => decide (g ≤ (tg : ℚ))
  | none => true

/-- Every adjacent pair of the sequence satisfies `gapWithin`. -/
def allGapsWithin (tg : ℤ) : List Page → Bool
  | [] => true
  | [_] => true
  | a :: b :: rest => gapWithin tg a b && allGapsWithin tg (b :: rest)

/-- A concrete page for witnesses. -/
def wPage (b : String) (t : Option ℚ) (x : String) : Page :=
  { image_path := b ++ ".jpg", base := b, german_txt_path := b ++ ".txt",
    timestamp := t, text := x }

/-- Three concrete pages, 60 and 40 seconds apart, with overlapping texts;
used by witnesses. -/
def wPages : List Page :=
  [wPage "P1" (some 0) "hello world", wPage "P2" (some 60) "hello world again",
   wPage "P3" (some 100) "hello again friend"]

/-- Three concrete pages without timestamps (only the similarity signal
applies), used by the single-group witness. -/
def wPagesNT : List Page :=
  [wPage "Q1" none "hello world", wPage "Q2" none "hello world again",
   wPage "Q3" none "hello again friend"]

/-! ### Basic facts about the similarity scorer -/

theorem jaccard_nonneg (T : CharTables) (a b : String) :
    0 ≤ jaccard_similarity T a b := by
  unfold jaccard_similarity
  split
  · exact le_refl 0
  · split
    · exact le_refl 0
    · positivity

theorem jaccard_le_one (T : CharTables) (a b : String) :
    jaccard_similarity T a b ≤ 1 := by
  unfold jaccard_similarity
  split
  · exact zero_le_one
  · split
    · exact zero_le_one
    · rename_i hne hu
      have hpos : (0 : ℚ) <
          (((_tokenize T a).toFinset ∪ (_tokenize T b).toFinset).card : ℚ) := by
        exact_mod_cast Nat.pos_of_ne_zero hu
      rw [div_le_one hpos]
      exact_mod_cast Finset.card_le_card Finset.inter_subset_union

/-- Claim C3: `jaccard_similarity(a, b)` equals `|A ∩ B| / |A ∪ B|` over the
case-folded token sets whenever both are non-empty, is `0` whenever either
token set is empty (no division by zero), and always lies in `[0, 1]`. -/
theorem jaccard_similarity_spec (T : CharTables) (a b : String) :
    (0 ≤ jaccard_similarity T a b ∧ jaccard_similarity T a b ≤ 1) ∧
    ((_tokenize T a).toFinset ≠ ∅ → (_tokenize T b).toFinset ≠ ∅ →
      jaccard_similarity T a b =
        (((_tokenize T a).toFinset ∩ (_tokenize T b).toFinset).card : ℚ) /
          (((_tokenize T a).toFinset ∪ (_tokenize T b).toFinset).card : ℚ)) ∧
    ((_tokenize T a).toFinset = ∅ ∨ (_tokenize T b).toFinset = ∅ →
      jaccard_similarity T a b = 0) := by
  refine ⟨⟨jaccard_nonneg T a b, jaccard_le_one T a b⟩, ?_, ?_⟩
  · intro ha hb
    have hcard : ((_tokenize T a).toFinset ∪ (_tokenize T b).toFinset).card ≠ 0 := by
      obtain ⟨x, hx⟩ := Finset.nonempty_of_ne_empty ha
      exact Finset.card_ne_zero_of_mem (Finset.mem_union_left _ hx)
    unfold jaccard_similarity
    rw [if_neg (by tauto), if_neg hcard]
  · intro h
    unfold jaccard_similarity
    rw [if_pos h]

/-- Witness for the similarity contract at two concrete texts with
non-empty token sets. -/
theorem jaccard_similarity_spec_witness :
    (_tokenize asciiTables "hello world").toFinset ≠ ∅ ∧
    (_tokenize asciiTables "hello there").toFinset ≠ ∅ ∧
    jaccard_similarity asciiTables "hello world" "hello there" =
      (((_tokenize asciiTables "hello world").toFinset ∩
          (_tokenize asciiTables "hello there").toFinset).card : ℚ) /
        (((_tokenize asciiTables "hello world").toFinset ∪
          (_tokenize asciiTables "hello there").toFinset).card : ℚ) :=
  ⟨by decide, by decide,
    (jaccard_similarity_spec asciiTables "hello world" "hello there").2.1
      (by decide) (by decide)⟩

/-- Claim C6: with no override path or a missing file the breakpoints are
returned unchanged, and any parse failure is swallowed with the original
breakpoints returned unchanged; `apply_overrides` is total and never
aborts the run. -/
theorem apply_overrides_error_handling (breaks : List Nat) (pages : List Page) :
    apply_overrides breaks pages OverrideInput.noFile = breaks ∧
    apply_overrides breaks pages OverrideInput.parseFail = breaks :=
  ⟨rfl, rfl⟩

/-! ### The breakpoint proposer -/

theorem breakCond_iff (T : CharTables) (tg : ℤ) (st : ℚ) (prev cur : Page) :
    breakCond T tg st prev cur = true ↔
      ((∃ tp tc, prev.timestamp = some tp ∧ cur.timestamp = some tc ∧
          (tg : ℚ) < tc - tp) ∨
        jaccard_similarity T prev.text cur.text < st) := by
  cases hp : prev.timestamp <;> cases hc : cur.timestamp <;>
    simp [breakCond, _time_gap_seconds, hp, hc]

theorem mem_proposeAux (T : CharTables) (tg : ℤ) (st : ℚ) :
    ∀ (rest : List Page) (prev : Page) (i j : Nat),
      j ∈ proposeAux T tg st prev rest i ↔
        ∃ k a b, j = i + k ∧ (prev :: rest).get? k = some a ∧
          rest.get? k = some b ∧ breakCond T tg st a b = true := by
  intro rest
  induction rest with
  | nil =>
    intro prev i j
    simp [proposeAux]
  | cons cur rest ih =>
    intro prev i j
    constructor
    · intro hj
      unfold proposeAux at hj
      by_cases hcond : breakCond T tg st prev cur = true
      · rw [if_pos hcond] at hj
        rcases List.mem_cons.mp hj with h | h
        · exact ⟨0, prev, cur, by omega, rfl, rfl, hcond⟩
        · obtain ⟨k, a, b, hjk, ha, hb, hc⟩ := (ih cur (i + 1) j).mp h
          exact ⟨k + 1, a, b, by omega, ha, hb, hc⟩
      · rw [if_neg hcond] at hj
        obtain ⟨k, a, b, hjk, ha, hb, hc⟩ := (ih cur (i + 1) j).mp hj
        exact ⟨k + 1, a, b, by omega, ha, hb, hc⟩
    · rintro ⟨k, a, b, hjk, ha, hb, hc⟩
      unfold proposeAux
      cases k with
      | zero =>
        simp only [List.get?] at ha hb
        obtain rfl : prev = a := by injection ha
        obtain rfl : cur = b := by injection hb
        rw [if_pos hc]
        simp [hjk]
      | succ k =>
        simp only [List.get?] at ha hb
        have hmem : j ∈ proposeAux T tg st cur rest (i + 1) :=
          (ih cur (i + 1) j).mpr ⟨k, a, b, by omega, ha, hb, hc⟩
        by_cases hcond : breakCond T tg st prev cur = true
        · rw [if_pos hcond]; exact List.mem_cons_of_mem _ hmem
        · rw [if_neg hcond]; exact hmem

/-- Claim C1: `propose_breakpoints` returns exactly the indices `i >= 1`
such that either both adjacent pages carry timestamps with a gap strictly
above the time-gap threshold, or the Jaccard similarity of
`pages[i-1].text` and `pages[i].text` is strictly below the similarity
threshold; a missing timestamp skips the gap test, and the comparison at
each step is against the immediately preceding page. -/
theorem propose_breakpoints_spec (T : CharTables) (pages : List Page)
    (tg : ℤ) (st : ℚ) (j : Nat) :
    j ∈ propose_breakpoints T pages tg st ↔
      1 ≤ j ∧ ∃ prev cur, pages.get? (j - 1) = some prev ∧
        pages.get? j = some cur ∧
        ((∃ tp tc, prev.timestamp = some tp ∧ cur.timestamp = some tc ∧
            (tg : ℚ) < tc - tp) ∨
          jaccard_similarity T prev.text cur.text < st) := by
  cases pages with
  | nil => simp [propose_breakpoints]
  | cons p rest =>
    show j ∈ proposeAux T tg st p rest 1 ↔ _
    rw [mem_proposeAux]
    constructor
    · rintro ⟨k, a, b, hjk, ha, hb, hc⟩
      subst hjk
      refine ⟨by omega, a, b, ?_, ?_, (breakCond_iff T tg st a b).mp hc⟩
      · simpa [Nat.add_sub_cancel_left] using ha
      · have : 1 + k = k + 1 := by omega
        rw [this]
        simpa [List.get?] using hb
    · rintro ⟨h1, prev, cur, hprev, hcur, hcond⟩
      refine ⟨j - 1, prev, cur, by omega, hprev, ?_,
        (breakCond_iff T tg st prev cur).mpr hcond⟩
      have : j = (j - 1) + 1 := by omega
      rw [this] at hcur
      simpa [List.get?] using hcur

/-! ### The grouper: partition invariant -/

theorem sliceL_append {α : Type} (l : List α) (s b t : Nat)
    (hsb : s ≤ b) (hbt : b ≤ t) :
    sliceL l s b ++ sliceL l b t = sliceL l s t := by
  unfold sliceL
  have hdrop : l.drop b = (l.drop s).drop (b - s) := by
    rw [List.drop_drop]
    congr 1
    omega
  rw [hdrop]
  have hsum : t - s = (b - s) + (t - b) := by omega
  rw [hsum, List.take_add]

theorem le_foldl_max (bs : List Nat) : ∀ a : Nat, a ≤ bs.foldl max a := by
  induction bs with
  | nil => intro a; simp
  | cons b bs ih =>
    intro a
    exact le_trans (le_max_left a b) (ih (max a b))

theorem groupLoop_join (pages : List Page) :
    ∀ (bs : List Nat) (start gid : Nat),
      ((groupLoop pages bs start gid).map Group.pages).flatten =
        (sliceL pages start (bs.foldl max start)).map pageMeta := by
  intro bs
  induction bs with
  | nil =>
    intro start gid
    simp [groupLoop, sliceL]
  | cons b bs ih =>
    intro start gid
    unfold groupLoop
    by_cases hb : b ≤ start
    · rw [if_pos hb, List.foldl_cons, max_eq_left hb, ih]
    · rw [if_neg hb]
      have hb' : start ≤ b := le_of_not_le hb
      simp only [List.map_cons, List.flatten_cons]
      rw [ih b (gid + 1), List.foldl_cons, max_eq_right hb', ← List.map_append,
        sliceL_append pages start b _ hb' (le_foldl_max bs b)]

/-- Claim C2: the groups produced by `group_pages` partition the page
sequence exactly: concatenating the groups' page lists, in group order,
yields precisely the input pages in input order — so every page lies in
exactly one group, groups are disjoint contiguous ranges, and group `N`
wholly precedes group `N+1`. -/
theorem group_pages_partition (pages : List Page) (breaks : List Nat) :
    ((group_pages pages breaks).map Group.pages).flatten = pages.map pageMeta := by
  unfold group_pages
  rw [groupLoop_join]
  have hM : pages.length ≤ (sortNat breaks.dedup ++ [pages.length]).foldl max 0 := by
    rw [List.foldl_append]
    exact le_max_right _ _
  unfold sliceL
  rw [List.drop_zero, Nat.sub_zero, List.take_of_length_le hM]

/-! ### The override merger: idempotence -/

theorem mem_sortNat (l : List Nat) (x : Nat) : x ∈ sortNat l ↔ x ∈ l :=
  (List.perm_insertionSort _ l).mem_iff

theorem sortNat_sorted (l : List Nat) :
    List.Sorted (fun a b : Nat => a ≤ b) (sortNat l) :=
  List.sorted_insertionSort _ l

theorem sortNat_idem (l : List Nat) : sortNat (sortNat l) = sortNat l :=
  List.Sorted.insertionSort_eq (sortNat_sorted l)

theorem overrideStep_none (pages : List Page) (bs : List Nat) (base : String)
    (h : name_to_index pages base = none) : overrideStep pages bs base = bs := by
  unfold overrideStep
  rw [h]

theorem overrideStep_some (pages : List Page) (bs : List Nat) (base : String)
    (idx : Nat) (h : name_to_index pages base = some idx) :
    overrideStep pages bs base =
      if idx + 1 ≤ pages.length - 1 ∧ (idx + 1) ∉ bs then bs ++ [idx + 1]
      else bs := by
  unfold overrideStep
  rw [h]

theorem mem_overrideStep (pages : List Page) (bs : List Nat) (base : String)
    (x : Nat) (hx : x ∈ bs) : x ∈ overrideStep pages bs base := by
  cases hidx : name_to_index pages base with
  | none => rw [overrideStep_none pages bs base hidx]; exact hx
  | some idx =>
    rw [overrideStep_some pages bs base idx hidx]
    by_cases hc : idx + 1 ≤ pages.length - 1 ∧ (idx + 1) ∉ bs
    · rw [if_pos hc]; exact List.mem_append_left _ hx
    · rw [if_neg hc]; exact hx

theorem mem_foldl_override (pages : List Page) :
    ∀ (bases : List String) (bs : List Nat) (x : Nat), x ∈ bs →
      x ∈ bases.foldl (overrideStep pages) bs := by
  intro bases
  induction bases with
  | nil => intro bs x hx; exact hx
  | cons b bases ih =>
    intro bs x hx
    exact ih _ x (mem_overrideStep pages bs b x hx)

theorem override_present (pages : List Page) :
    ∀ (bases : List String) (bs : List Nat) (base : String) (idx : Nat),
      base ∈ bases → name_to_index pages base = some idx →
      idx + 1 ≤ pages.length - 1 →
      (idx + 1) ∈ bases.foldl (overrideStep pages) bs := by
  intro bases
  induction bases with
  | nil => intro bs base idx h; exact absurd h (List.not_mem_nil base)
  | cons b bases ih =>
    intro bs base idx hmem hidx hrange
    rcases List.mem_cons.mp hmem with rfl | hmem'
    · refine mem_foldl_override pages bases _ _ ?_
      rw [overrideStep_some pages bs base idx hidx]
      by_cases hin : (idx + 1) ∈ bs
      · rw [if_neg (by tauto)]
        exact hin
      · rw [if_pos ⟨hrange, hin⟩]
        exact List.mem_append_right _ (List.mem_singleton.mpr rfl)
    · exact ih _ base idx hmem' hidx hrange

theorem foldl_override_id (pages : List Page) :
    ∀ (bases : List String) (bs : List Nat),
      (∀ base ∈ bases, ∀ idx, name_to_index pages base = some idx →
        idx + 1 ≤ pages.length - 1 → (idx + 1) ∈ bs) →
      bases.foldl (overrideStep pages) bs = bs := by
  intro bases
  induction bases with
  | nil => intro bs _; rfl
  | cons b bases ih =>
    intro bs h
    have hstep : overrideStep pages bs b = bs := by
      cases hidx : name_to_index pages b with
      | none => exact overrideStep_none pages bs b hidx
      | some idx =>
        rw [overrideStep_some pages bs b idx hidx, if_neg]
        by_cases hrange : idx + 1 ≤ pages.length - 1
        · have := h b (List.mem_cons_self b bases) idx hidx hrange
          tauto
        · tauto
    rw [List.foldl_cons, hstep]
    exact ih bs (fun base hb => h base (List.mem_cons_of_mem b hb))

/-- Claim C7: applying the same override input twice produces the same
boundary list as applying it once: each forced boundary (page index + 1,
only when not already at the end of the sequence) is inserted only if
absent, and the result is sorted, so a second application changes
nothing. -/
theorem apply_overrides_idempotent (breaks : List Nat) (pages : List Page)
    (ov : OverrideInput) :
    apply_overrides (apply_overrides breaks pages ov) pages ov =
      apply_overrides breaks pages ov := by
  cases ov with
  | noFile => rfl
  | parseFail => rfl
  | ok bases =>
    simp only [apply_overrides]
    rw [foldl_override_id pages bases _ ?hpres]
    case hpres =>
      intro base hb idx hidx hrange
      exact (mem_sortNat _ _).mpr
        (override_present pages bases breaks base idx hb hidx hrange)
    exact sortNat_idem _

/-! ### Single-group ("whole book") mode -/

theorem proposeAux_no_break (T : CharTables) (tg : ℤ) :
    ∀ (rest : List Page) (prev : Page) (i : Nat),
      allGapsWithin tg (prev :: rest) = true →
      proposeAux T tg 0 prev rest i = [] := by
  intro rest
  induction rest with
  | nil => intro prev i _; rfl
  | cons cur rest ih =>
    intro prev i hchain
    rw [show allGapsWithin tg (prev :: cur :: rest) =
        (gapWithin tg prev cur && allGapsWithin tg (cur :: rest)) from rfl,
      Bool.and_eq_true] at hchain
    unfold proposeAux
    rw [if_neg ?hc]
    case hc =>
      intro hcond
      rcases (breakCond_iff T tg 0 prev cur).mp hcond with
        ⟨tp, tc, hp, hc2, hgt⟩ | hsim
      · have hw := hchain.1
        simp only [gapWithin, _time_gap_seconds, hp, hc2,
          decide_eq_true_eq] at hw
        exact absurd hgt (not_lt.mpr hw)
      · exact absurd hsim (not_lt.mpr (jaccard_nonneg T _ _))
    exact ih cur (i + 1) hchain.2

/-- Claim C8: with similarity threshold `0` and a time-gap threshold at
least as large as every adjacent-page gap, `propose_breakpoints` returns no
breakpoints on a non-empty page sequence, and `group_pages` then produces
the single group `L0001` holding all pages in order. -/
theorem single_group_mode (T : CharTables) (pages : List Page) (tg : ℤ)
    (hne : pages ≠ []) (hgap : allGapsWithin tg pages = true) :
    propose_breakpoints T pages tg 0 = [] ∧
    group_pages pages (propose_breakpoints T pages tg 0) =
      [{ id := "L0001", pages := pages.map pageMeta }] := by
  have hprop : propose_breakpoints T pages tg 0 = [] := by
    cases pages with
    | nil => rfl
    | cons p rest => exact proposeAux_no_break T tg rest p 1 hgap
  refine ⟨hprop, ?_⟩
  rw [hprop]
  show groupLoop pages (sortNat (List.dedup []) ++ [pages.length]) 0 1 = _
  have hlen : 0 < pages.length := List.length_pos.mpr hne
  have hsort : sortNat (List.dedup ([] : List Nat)) ++ [pages.length] =
      [pages.length] := rfl
  rw [hsort]
  unfold groupLoop
  rw [if_neg (by omega)]
  have hslice : sliceL pages 0 pages.length = pages := by
    unfold sliceL
    rw [List.drop_zero, Nat.sub_zero, List.take_length]
  rw [hslice]
  have hid : groupId 1 = "L0001" := by decide
  rw [hid]
  rfl

/-- Witness for the single-group mode at the concrete three-page input. -/
theorem single_group_mode_witness :
    propose_breakpoints asciiTables wPagesNT 200 0 = [] ∧
    group_pages wPagesNT (propose_breakpoints asciiTables wPagesNT 200 0) =
      [{ id := "L0001", pages := wPagesNT.map pageMeta }] :=
  single_group_mode asciiTables wPagesNT 200 (by decide) (by decide)

/-! ### The text-cleaning step -/

theorem strip_ctrl_chars (s : String) :
    ∀ c ∈ (_strip_ctrl s).data, allowedCtrl c = true := by
  intro c hc
  exact (List.mem_filter.mp hc).2

theorem strip_ctrl_eq_self (s : String)
    (h : ∀ c ∈ s.data, allowedCtrl c = true) : _strip_ctrl s = s := by
  show String.mk (s.data.filter allowedCtrl) = s
  rw [List.filter_eq_self.mpr h]

theorem splitlinesAux_chars (n : Nat) :
    ∀ (l buf : List Char), l.length ≤ n →
      ∀ ln ∈ splitlinesAux l buf, ∀ c ∈ ln.data, c ∈ l ∨ c ∈ buf := by
  induction n with
  | zero =>
    intro l buf hl ln hln c hc
    have : l = [] := List.length_eq_zero.mp (Nat.le_zero.mp hl)
    subst this
    unfold splitlinesAux at hln
    by_cases hb : buf.isEmpty
    · rw [if_pos hb] at hln
      exact absurd hln (List.not_mem_nil ln)
    · rw [if_neg hb] at hln
      rw [List.mem_singleton.mp hln] at hc
      exact Or.inr (List.mem_reverse.mp hc)
  | succ n ih =>
    intro l buf hl ln hln c hc
    cases l with
    | nil =>
      unfold splitlinesAux at hln
      by_cases hb : buf.isEmpty
      · rw [if_pos hb] at hln
        exact absurd hln (List.not_mem_nil ln)
      · rw [if_neg hb] at hln
        rw [List.mem_singleton.mp hln] at hc
        exact Or.inr (List.mem_reverse.mp hc)
    | cons a rest =>
      by_cases hcr : a = '\r'
      · subst hcr
        cases rest with
        | nil =>
          have hred : splitlinesAux ['\r'] buf = [String.mk buf.reverse] := rfl
          rw [hred] at hln
          rw [List.mem_singleton.mp hln] at hc
          exact Or.inr (List.mem_reverse.mp hc)
        | cons c2 rest2 =>
          have hred : splitlinesAux ('\r' :: c2 :: rest2) buf =
              if c2 = '\n' then
                String.mk buf.reverse :: splitlinesAux rest2 []
              else String.mk buf.reverse :: splitlinesAux (c2 :: rest2) [] := rfl
          rw [hred] at hln
          by_cases hc2 : c2 = '\n'
          · rw [if_pos hc2] at hln
            rcases List.mem_cons.mp hln with rfl | hmem
            · exact Or.inr (List.mem_reverse.mp hc)
            · rcases ih rest2 [] (by simp at hl ⊢; omega) ln hmem c hc with
                h | h
              · exact Or.inl (by simp [h])
              · exact absurd h (List.not_mem_nil c)
          · rw [if_neg hc2] at hln
            rcases List.mem_cons.mp hln with rfl | hmem
            · exact Or.inr (List.mem_reverse.mp hc)
            · rcases ih (c2 :: rest2) [] (by simp at hl ⊢; omega) ln hmem c hc
                with h | h
              · exact Or.inl (List.mem_cons_of_mem _ h)
              · exact absurd h (List.not_mem_nil c)
      · unfold splitlinesAux at hln
        rw [if_neg hcr] at hln
        by_cases hb : isLineBoundary a
        · rw [if_pos hb] at hln
          rcases List.mem_cons.mp hln with rfl | hmem
          · exact Or.inr (List.mem_reverse.mp hc)
          · rcases ih rest [] (by simp at hl ⊢; omega) ln hmem c hc with h | h
            · exact Or.inl (List.mem_cons_of_mem a h)
            · exact absurd h (List.not_mem_nil c)
        · rw [if_neg hb] at hln
          rcases ih rest (a :: buf) (by simp at hl ⊢; omega) ln hln c hc with
            h | h
          · exact Or.inl (List.mem_cons_of_mem a h)
          · rcases List.mem_cons.mp h with rfl | h2
            · exact Or.inl (List.mem_cons_self c rest)
            · exact Or.inr h2

theorem splitlinesPy_chars (s : String) :
    ∀ ln ∈ splitlinesPy s, ∀ c ∈ ln.data, c ∈ s.data := by
  intro ln hln c hc
  rcases splitlinesAux_chars s.data.length s.data [] (le_refl _) ln hln c hc with
    h | h
  · exact h
  · exact absurd h (List.not_mem_nil c)

theorem matchAfterDigits_suffix (D : DigitTable) (digits : List Char) :
    ∀ (ad : List Char) (n : Nat) (rest : List Char),
      matchAfterDigits D digits ad = some (n, rest) → rest <:+ ad := by
  intro ad n rest h
  cases ad with
  | nil => cases h
  | cons c tl =>
    cases tl with
    | nil =>
      have hred : matchAfterDigits D digits [c] =
          if 1 ≤ digits.length ∧ digits.length ≤ 4 then
            if c = '.' ∨ c = ')' then none else none
          else none := rfl
      rw [hred] at h
      rcases Decidable.em (1 ≤ digits.length ∧ digits.length ≤ 4) with h1 | h1
      · rw [if_pos h1, ite_self] at h; cases h
      · rw [if_neg h1] at h; cases h
    | cons d tl2 =>
      have hred : matchAfterDigits D digits (c :: d :: tl2) =
          if 1 ≤ digits.length ∧ digits.length ≤ 4 then
            if c = '.' ∨ c = ')' then
              if isPySpace d then
                some (digitsToNat D digits, (d :: tl2).dropWhile isPySpace)
              else none
            else none
          else none := rfl
      rw [hred] at h
      rcases Decidable.em (1 ≤ digits.length ∧ digits.length ≤ 4) with h1 | h1
      · rw [if_pos h1] at h
        rcases Decidable.em (c = '.' ∨ c = ')') with h2 | h2
        · rw [if_pos h2] at h
          rcases Decidable.em (isPySpace d = true) with h3 | h3
          · rw [if_pos h3] at h
            have hr : rest = (d :: tl2).dropWhile isPySpace := by
              injection h with h4
              exact (congrArg Prod.snd h4).symm
            rw [hr]
            exact (List.dropWhile_suffix _).trans (List.suffix_cons c _)
          · rw [if_neg h3] at h; cases h
        · rw [if_neg h2] at h; cases h
      · rw [if_neg h1] at h; cases h

theorem matchNumbering_suffix (D : DigitTable) (ln : List Char) (n : Nat)
    (rest : List Char) (h : matchNumbering D ln = some (n, rest)) :
    rest <:+ ln := by
  have h1 := matchAfterDigits_suffix D _ _ n rest h
  exact h1.trans ((List.dropWhile_suffix _).trans (List.dropWhile_suffix _))

theorem stripNumbering_suffix (D : DigitTable) (ln : List Char) :
    stripNumbering D ln <:+ ln := by
  unfold stripNumbering
  cases h : matchNumbering D ln with
  | none => exact List.suffix_refl ln
  | some x => exact matchNumbering_suffix D ln x.1 x.2 h

theorem mem_joinLines :
    ∀ (ls : List (List Char)) (c : Char), c ∈ joinLines ls →
      c = '\n' ∨ ∃ l ∈ ls, c ∈ l := by
  intro ls
  induction ls with
  | nil => intro c hc; exact absurd hc (List.not_mem_nil c)
  | cons l ls ih =>
    intro c hc
    cases ls with
    | nil => exact Or.inr ⟨l, List.mem_singleton.mpr rfl, hc⟩
    | cons l2 ls2 =>
      rw [show joinLines (l :: l2 :: ls2) = l ++ '\n' :: joinLines (l2 :: ls2)
        from rfl] at hc
      rcases List.mem_append.mp hc with h | h
      · exact Or.inr ⟨l, List.mem_cons_self _ _, h⟩
      · rcases List.mem_cons.mp h with rfl | h2
        · exact Or.inl rfl
        · rcases ih c h2 with h3 | ⟨l3, hl3, hcl3⟩
          · exact Or.inl h3
          · exact Or.inr ⟨l3, List.mem_cons_of_mem l hl3, hcl3⟩

theorem clean_chars_allowed (D : DigitTable) (s : String) :
    ∀ c ∈ (_clean_leading_numbering D s).data, allowedCtrl c = true := by
  intro c hc
  unfold _clean_leading_numbering at hc
  split at hc
  · rcases mem_joinLines _ c hc with rfl | ⟨l, hl, hcl⟩
    · rfl
    · rcases List.mem_map.mp hl with ⟨l2, hl2, rfl⟩
      rcases List.mem_map.mp hl2 with ⟨lnStr, hlnStr, rfl⟩
      have hcl2 : c ∈ lnStr.data := (stripNumbering_suffix D _).subset hcl
      exact strip_ctrl_chars s c (splitlinesPy_chars _ lnStr hlnStr c hcl2)
  · exact strip_ctrl_chars s c hc

/-- Counterexample to claim C9 as stated: the text `"\x01"` has no
numbering run at all (longest run `0 < 4`), yet it is not returned
unchanged — the control byte is stripped unconditionally. -/
theorem clean_numbering_cex :
    longestRun asciiDigits ((splitlinesPy "\x01").map String.data) = 0 ∧
    _clean_leading_numbering asciiDigits "\x01" ≠ "\x01" := by decide

/-- Claim C9 (amended): on texts containing no character below code point
32 other than newline, carriage return and tab, `_clean_leading_numbering`
strips the line-leading numbering (via the anchored `\s*(\d{1,4})[.)]\s+`
pattern, joining lines with newlines) exactly when the longest incrementing
run is at least 4 lines, and returns the text unchanged when that run is
shorter than 4. -/
theorem clean_numbering_spec (D : DigitTable) (s : String)
    (hchars : ∀ c ∈ s.data, allowedCtrl c = true) :
    (4 ≤ longestRun D ((splitlinesPy s).map String.data) →
      _clean_leading_numbering D s =
        String.mk (joinLines
          (((splitlinesPy s).map String.data).map (stripNumbering D)))) ∧
    (longestRun D ((splitlinesPy s).map String.data) < 4 →
      _clean_leading_numbering D s = s) := by
  have hid : _strip_ctrl s = s := strip_ctrl_eq_self s hchars
  constructor
  · intro h4
    unfold _clean_leading_numbering
    rw [hid, if_pos h4]
  · intro h4
    unfold _clean_leading_numbering
    rw [hid, if_neg (by omega)]

/-- Witness: a four-line incrementing run is stripped, a three-line run is
returned unchanged. -/
theorem clean_numbering_spec_witness :
    _clean_leading_numbering asciiDigits "1. a\n2. b\n3. c\n4. d" =
      "a\nb\nc\nd" ∧
    _clean_leading_numbering asciiDigits "1. a\n2. b\n3. c" =
      "1. a\n2. b\n3. c" := by
  constructor
  · rw [(clean_numbering_spec asciiDigits "1. a\n2. b\n3. c\n4. d"
      (by decide)).1 (by decide)]
    decide
  · exact (clean_numbering_spec asciiDigits "1. a\n2. b\n3. c" (by decide)).2
      (by decide)

theorem foldl_append_data (l : List String) :
    ∀ acc : String, (l.foldl (fun r s => r ++ s) acc).data =
      acc.data ++ (l.map String.data).flatten := by
  induction l with
  | nil => intro acc; simp
  | cons s l ih =>
    intro acc
    rw [List.foldl_cons, ih, String.data_append]
    simp

theorem string_join_data (l : List String) :
    (String.join l).data = (l.map String.data).flatten := by
  show (l.foldl (fun r s => r ++ s) "").data = _
  rw [foldl_append_data]
  rfl

/-- Counterexample to claim C10 as stated: U+007F is a Unicode control
character (range U+007F-U+009F is category Cc) distinct from newline,
carriage return and tab, yet `_clean_leading_numbering` returns a text
containing it byte-identical — the source only strips code points below
32. -/
theorem clean_ctrl_cex :
    (127 ≤ ('\x7f' : Char).toNat ∧ ('\x7f' : Char).toNat ≤ 159) ∧
    ('\x7f' : Char) ≠ '\n' ∧ ('\x7f' : Char) ≠ '\r' ∧ ('\x7f' : Char) ≠ '\t' ∧
    _clean_leading_numbering asciiDigits "\x7f" = "\x7f" := by decide

/-- Claim C10 (amended): `_clean_leading_numbering` unconditionally removes
every character with code point below 32 other than newline, carriage
return and tab — its output contains only allowed characters, so any text
containing such a character is never returned byte-identical — and the
per-group concatenated text, built from the cleaned page texts rather than
the raw transcriptions, likewise contains no such character. -/
theorem clean_ctrl_spec (D : DigitTable) (s : String)
    (texts : String → String) (g : Group) :
    (∀ c ∈ (_clean_leading_numbering D s).data, allowedCtrl c = true) ∧
    ((∃ c ∈ s.data, allowedCtrl c = false) →
      _clean_leading_numbering D s ≠ s) ∧
    (∀ c ∈ (group_de_text D texts g).data, allowedCtrl c = true) := by
  refine ⟨clean_chars_allowed D s, ?_, ?_⟩
  · rintro ⟨c, hc, hbad⟩ heq
    have hc2 : c ∈ (_clean_leading_numbering D s).data := by rw [heq]; exact hc
    have := clean_chars_allowed D s c hc2
    rw [this] at hbad
    cases hbad
  · intro c hc
    unfold group_de_text at hc
    rw [string_join_data] at hc
    rcases List.mem_flatten.mp hc with ⟨l, hl, hcl⟩
    rcases List.mem_map.mp hl with ⟨s2, hs2, rfl⟩
    rcases List.mem_map.mp hs2 with ⟨p, hp, rfl⟩
    exact clean_chars_allowed D _ c hcl

/-- Witness: a text containing the control byte 0x01 is changed by the
cleaning step. -/
theorem clean_ctrl_spec_witness :
    _clean_leading_numbering asciiDigits "a\x01b" ≠ "a\x01b" :=
  (clean_ctrl_spec asciiDigits "a\x01b" (fun _ => "")
    { id := "L0001", pages := [] }).2.1 ⟨'\x01', by decide, by decide⟩

/-! ### Threshold monotonicity -/

theorem breakCond_mono (T : CharTables) (tg tg' : ℤ) (st st' : ℚ)
    (hg : tg ≤ tg') (hs : st' ≤ st) (a b : Page)
    (h : breakCond T tg' st' a b = true) : breakCond T tg st a b = true := by
  unfold breakCond at h ⊢
  rw [Bool.or_eq_true] at h ⊢
  rcases h with h | h
  · left
    cases hgap : _time_gap_seconds a.timestamp b.timestamp with
    | none => rw [hgap] at h; cases h
    | some g =>
      rw [hgap] at h
      have h2 : decide ((tg' : ℚ) < g) = true := h
      rw [decide_eq_true_eq] at h2
      show decide ((tg : ℚ) < g) = true
      rw [decide_eq_true_eq]
      have hcast : (tg : ℚ) ≤ (tg' : ℚ) := by exact_mod_cast hg
      linarith
  · right
    rw [decide_eq_true_eq] at h ⊢
    linarith

theorem proposeAux_sublist (T : CharTables) (tg tg' : ℤ) (st st' : ℚ)
    (hg : tg ≤ tg') (hs : st' ≤ st) :
    ∀ (rest : List Page) (prev : Page) (i : Nat),
      List.Sublist (proposeAux T tg' st' prev rest i) (proposeAux T tg st prev rest i) := by
  intro rest
  induction rest with
  | nil => intro prev i; exact List.Sublist.refl []
  | cons cur rest ih =>
    intro prev i
    unfold proposeAux
    by_cases h' : breakCond T tg' st' prev cur = true
    · rw [if_pos h', if_pos (breakCond_mono T tg tg' st st' hg hs prev cur h')]
      exact List.Sublist.cons₂ i (ih cur (i + 1))
    · rw [if_neg h']
      by_cases h2 : breakCond T tg st prev cur = true
      · rw [if_pos h2]; exact List.Sublist.cons i (ih cur (i + 1))
      · rw [if_neg h2]; exact ih cur (i + 1)

theorem propose_sublist (T : CharTables) (pages : List Page) (tg tg' : ℤ)
    (st st' : ℚ) (hg : tg ≤ tg') (hs : st' ≤ st) :
    List.Sublist (propose_breakpoints T pages tg' st') (propose_breakpoints T pages tg st) := by
  cases pages with
  | nil => exact List.Sublist.refl []
  | cons p rest => exact proposeAux_sublist T tg tg' st st' hg hs rest p 1

theorem proposeAux_chain (T : CharTables) (tg : ℤ) (st : ℚ) :
    ∀ (rest : List Page) (prev : Page) (i i0 : Nat), i0 < i →
      List.Chain (· < ·) i0 (proposeAux T tg st prev rest i) := by
  intro rest
  induction rest with
  | nil => intro prev i i0 _; exact List.Chain.nil
  | cons cur rest ih =>
    intro prev i i0 hi
    unfold proposeAux
    by_cases hc : breakCond T tg st prev cur = true
    · rw [if_pos hc]
      exact List.Chain.cons hi (ih cur (i + 1) i (by omega))
    · rw [if_neg hc]
      exact ih cur (i + 1) i0 (by omega)

theorem propose_chain (T : CharTables) (pages : List Page) (tg : ℤ) (st : ℚ) :
    List.Chain (· < ·) 0 (propose_breakpoints T pages tg st) := by
  cases pages with
  | nil => exact List.Chain.nil
  | cons p rest => exact proposeAux_chain T tg st rest p 1 0 (by omega)

theorem propose_lt_length (T : CharTables) (pages : List Page) (tg : ℤ)
    (st : ℚ) : ∀ j ∈ propose_breakpoints T pages tg st, j < pages.length := by
  intro j hj
  obtain ⟨-, prev, cur, -, hcur, -⟩ :=
    (propose_breakpoints_spec T pages tg st j).mp hj
  exact (List.get?_eq_some.mp hcur).1

theorem sortNat_dedup_eq_self (l : List Nat)
    (h : List.Pairwise (· < ·) l) : sortNat l.dedup = l := by
  rw [List.dedup_eq_self.mpr (List.Pairwise.imp (fun hab => Nat.ne_of_lt hab) h)]
  exact List.Sorted.insertionSort_eq (List.Pairwise.imp Nat.le_of_lt h)

theorem chain_lt_append_last (t : Nat) :
    ∀ (bs : List Nat) (s : Nat), List.Chain (· < ·) s bs →
      (∀ b ∈ bs, b < t) → s < t → List.Chain (· < ·) s (bs ++ [t]) := by
  intro bs
  induction bs with
  | nil => intro s _ _ hst; exact List.Chain.cons hst List.Chain.nil
  | cons b bs ih =>
    intro s hch hlt hst
    rw [List.cons_append]
    rcases List.chain_cons.mp hch with ⟨h1, h2⟩
    exact List.Chain.cons h1
      (ih b h2 (fun x hx => hlt x (List.mem_cons_of_mem b hx))
        (hlt b (List.mem_cons_self b bs)))

theorem chain_le_last :
    ∀ (cs : List Nat) (c t : Nat), List.Chain (· ≤ ·) c (cs ++ [t]) → c ≤ t := by
  intro cs
  induction cs with
  | nil => intro c t h; exact (List.chain_cons.mp h).1
  | cons x cs ih =>
    intro c t h
    rw [List.cons_append] at h
    rcases List.chain_cons.mp h with ⟨h1, h2⟩
    exact le_trans h1 (ih x t h2)

theorem sliceL_map {α β : Type} (f : α → β) (l : List α) (s t : Nat) :
    (sliceL l s t).map f = sliceL (l.map f) s t := by
  unfold sliceL
  rw [List.map_take, List.map_drop]

theorem fence_length {α : Type} (l : List α) :
    ∀ (cs : List Nat) (s t : Nat), (fence l s cs t).length = cs.length + 1 := by
  intro cs
  induction cs with
  | nil => intro s t; rfl
  | cons c cs ih => intro s t; simp [fence, ih c t]

theorem fence_ne_nil {α : Type} (l : List α) (s t : Nat) (cs : List Nat) :
    fence l s cs t ≠ [] := by
  cases cs <;> simp [fence]

theorem fence_join {α : Type} (l : List α) :
    ∀ (cs : List Nat) (s t : Nat), List.Chain (· ≤ ·) s (cs ++ [t]) →
      (fence l s cs t).flatten = sliceL l s t := by
  intro cs
  induction cs with
  | nil => intro s t _; simp [fence]
  | cons c cs ih =>
    intro s t hch
    rw [List.cons_append] at hch
    rcases List.chain_cons.mp hch with ⟨h1, h2⟩
    show (sliceL l s c :: fence l c cs t).flatten = sliceL l s t
    rw [List.flatten_cons, ih c t h2,
      sliceL_append l s c t h1 (chain_le_last cs c t h2)]

theorem fence_append {α : Type} (l : List α) :
    ∀ (pre : List Nat) (s c t : Nat) (post : List Nat),
      fence l s (pre ++ c :: post) t = fence l s pre c ++ fence l c post t := by
  intro pre
  induction pre with
  | nil => intro s c t post; rfl
  | cons p pre ih =>
    intro s c t post
    show sliceL l s p :: fence l p (pre ++ c :: post) t = _
    rw [ih p c t post]
    rfl

theorem cons_sublist_decomp {α : Type} {a : α} {l1 l2 : List α}
    (h : List.Sublist (a :: l1) l2) :
    ∃ pre post, l2 = pre ++ a :: post ∧ List.Sublist l1 post := by
  induction l2 with
  | nil => cases h
  | cons x l2 ih =>
    cases h with
    | cons a h2 =>
      obtain ⟨pre, post, rfl, hs⟩ := ih h2
      exact ⟨x :: pre, post, rfl, hs⟩
    | cons₂ a h2 => exact ⟨[], l2, rfl, h2⟩

theorem fence_merge {α : Type} (l : List α) :
    ∀ (bs' bs : List Nat) (s t : Nat), List.Sublist bs' bs →
      List.Chain (· ≤ ·) s (bs ++ [t]) →
      ∃ css : List (List (List α)),
        css.flatten = fence l s bs t ∧
        css.map List.flatten = fence l s bs' t ∧
        ∀ cs ∈ css, cs ≠ [] := by
  intro bs'
  induction bs' with
  | nil =>
    intro bs s t _ hchain
    refine ⟨[fence l s bs t], by simp, ?_, by simp [fence_ne_nil]⟩
    rw [List.map_cons, List.map_nil, fence_join l bs s t hchain]
    rfl
  | cons b bs' ih =>
    intro bs s t hsub hchain
    obtain ⟨pre, post, rfl, hsub'⟩ := cons_sublist_decomp hsub
    have hchain2 : List.Chain (· ≤ ·) s (pre ++ b :: (post ++ [t])) := by
      simpa [List.append_assoc] using hchain
    rw [List.chain_split] at hchain2
    obtain ⟨hpre, hpost⟩ := hchain2
    obtain ⟨css, h1, h2, h3⟩ := ih post b t hsub' hpost
    refine ⟨fence l s pre b :: css, ?_, ?_, ?_⟩
    · rw [List.flatten_cons, h1, fence_append]
    · rw [List.map_cons, h2, fence_join l pre s b hpre]
      rfl
    · intro cs hcs
      rcases List.mem_cons.mp hcs with rfl | hmem
      · exact fence_ne_nil l s b pre
      · exact h3 cs hmem

theorem groupLoop_eq_fence (pages : List Page) :
    ∀ (bs : List Nat) (start gid : Nat),
      List.Chain (· < ·) start bs → (∀ b ∈ bs, b < pages.length) →
      start < pages.length →
      (groupLoop pages (bs ++ [pages.length]) start gid).map Group.pages =
        fence (pages.map pageMeta) start bs pages.length := by
  intro bs
  induction bs with
  | nil =>
    intro start gid _ _ hstart
    show (groupLoop pages [pages.length] start gid).map Group.pages = _
    unfold groupLoop
    rw [if_neg (by omega)]
    show [(sliceL pages start pages.length).map pageMeta] = _
    rw [sliceL_map]
    rfl
  | cons b bs ih =>
    intro start gid hchain hlt hstart
    rw [List.cons_append]
    rcases List.chain_cons.mp hchain with ⟨h1, h2⟩
    unfold groupLoop
    rw [if_neg (by omega)]
    rw [List.map_cons,
      ih b (gid + 1) h2 (fun x hx => hlt x (List.mem_cons_of_mem b hx))
        (hlt b (List.mem_cons_self b bs)),
      sliceL_map]
    rfl

theorem group_pages_eq_fence (T : CharTables) (pages : List Page) (tg : ℤ)
    (st : ℚ) (hne : pages ≠ []) :
    (group_pages pages (propose_breakpoints T pages tg st)).map Group.pages =
      fence (pages.map pageMeta) 0 (propose_breakpoints T pages tg st)
        pages.length := by
  have hchain := propose_chain T pages tg st
  have hpw : List.Pairwise (· < ·) (propose_breakpoints T pages tg st) :=
    (List.chain_iff_pairwise.mp hchain).of_cons
  unfold group_pages
  rw [sortNat_dedup_eq_self _ hpw]
  exact groupLoop_eq_fence pages _ 0 1 hchain (propose_lt_length T pages tg st)
    (List.length_pos.mpr hne)

/-- Claim C4: relaxing the thresholds (time-gap up, similarity down) makes
the proposed breakpoint set a subset of the original, the number of groups
never increases, and the relaxed grouping merges consecutive original
groups: some consecutive chunking of the original groups' page lists
flattens chunk-wise to the relaxed groups' page lists. -/
theorem threshold_monotonicity (T : CharTables) (pages : List Page)
    (tg tg' : ℤ) (st st' : ℚ) (hg : tg ≤ tg') (hs : st' ≤ st) :
    propose_breakpoints T pages tg' st' ⊆ propose_breakpoints T pages tg st ∧
    (group_pages pages (propose_breakpoints T pages tg' st')).length ≤
      (group_pages pages (propose_breakpoints T pages tg st)).length ∧
    ∃ css : List (List (List PageMeta)),
      css.flatten =
        (group_pages pages (propose_breakpoints T pages tg st)).map
          Group.pages ∧
      css.map List.flatten =
        (group_pages pages (propose_breakpoints T pages tg' st')).map
          Group.pages ∧
      ∀ cs ∈ css, cs ≠ [] := by
  have hsub := propose_sublist T pages tg tg' st st' hg hs
  refine ⟨hsub.subset, ?_, ?_⟩
  · by_cases hne : pages = []
    · subst hne
      exact le_refl _
    · have hB := group_pages_eq_fence T pages tg st hne
      have hB' := group_pages_eq_fence T pages tg' st' hne
      have hlenB := congrArg List.length hB
      have hlenB' := congrArg List.length hB'
      rw [List.length_map, fence_length] at hlenB hlenB'
      rw [hlenB, hlenB']
      exact Nat.add_le_add_right hsub.length_le 1
  · by_cases hne : pages = []
    · subst hne
      exact ⟨[], rfl, rfl, by simp⟩
    · have hB := group_pages_eq_fence T pages tg st hne
      have hB' := group_pages_eq_fence T pages tg' st' hne
      have hchainle : List.Chain (· ≤ ·) 0
          (propose_breakpoints T pages tg st ++ [pages.length]) :=
        List.Chain.imp (fun a b hab => Nat.le_of_lt hab)
          (chain_lt_append_last pages.length _ 0 (propose_chain T pages tg st)
            (propose_lt_length T pages tg st) (List.length_pos.mpr hne))
      obtain ⟨css, h1, h2, h3⟩ := fence_merge (pages.map pageMeta) _ _ 0
        pages.length hsub hchainle
      exact ⟨css, by rw [hB]; exact h1, by rw [hB']; exact h2, h3⟩

/-- Witness for threshold monotonicity: three concrete pages, strict
thresholds versus fully relaxed ones. -/
theorem threshold_monotonicity_witness :
    propose_breakpoints asciiTables wPages 1000 0 ⊆
      propose_breakpoints asciiTables wPages 0 1 ∧
    (group_pages wPages (propose_breakpoints asciiTables wPages 1000 0)).length ≤
      (group_pages wPages (propose_breakpoints asciiTables wPages 0 1)).length ∧
    ∃ css : List (List (List PageMeta)),
      css.flatten =
        (group_pages wPages (propose_breakpoints asciiTables wPages 0 1)).map
          Group.pages ∧
      css.map List.flatten =
        (group_pages wPages
          (propose_breakpoints asciiTables wPages 1000 0)).map Group.pages ∧
      ∀ cs ∈ css, cs ≠ [] :=
  threshold_monotonicity asciiTables wPages 0 1000 1 0 (by decide) (by decide)

/-! ### Determinism of the pure pipeline -/

/-- Claim C5: the grouping stage is deterministic.  Two runs of the pure
pipeline (`build_pages`, then `propose_breakpoints`, then
`apply_overrides`, then `group_pages`, then per-group text assembly) on
equal page inputs (image paths, transcription and path maps, timestamp
oracles, character and digit tables), equal thresholds and equal override
content
produce identical group ids, group membership and concatenated per-group
text. -/
theorem pipeline_deterministic
    (T1 T2 : CharTables) (D1 D2 : DigitTable) (e1 e2 m1 m2 : String → Option ℚ)
    (i1 i2 : List String) (t1 t2 p1 p2 : String → Option String)
    (tg1 tg2 : ℤ) (s1 s2 : ℚ) (o1 o2 : OverrideInput)
    (hT : T1 = T2) (hD : D1 = D2) (he : e1 = e2) (hm : m1 = m2) (hi : i1 = i2)
    (ht : t1 = t2) (hp : p1 = p2) (htg : tg1 = tg2) (hs : s1 = s2)
    (ho : o1 = o2) :
    run_pipeline T1 D1 e1 m1 i1 t1 p1 tg1 s1 o1 =
      run_pipeline T2 D2 e2 m2 i2 t2 p2 tg2 s2 o2 := by
  subst hT hD he hm hi ht hp htg hs ho
  rfl

/-- Witness: two identical concrete runs coincide. -/
theorem pipeline_deterministic_witness :
    run_pipeline asciiTables asciiDigits (fun _ => none) (fun _ => none)
        ["P1.jpg"] (fun _ => none) (fun _ => none) 180 0
        OverrideInput.noFile =
      run_pipeline asciiTables asciiDigits (fun _ => none) (fun _ => none)
        ["P1.jpg"] (fun _ => none) (fun _ => none) 180 0
        OverrideInput.noFile :=
  pipeline_deterministic _ _ _ _ _ _ _ _ _ _ _ _ _ _ _ _ _ _ _ _
    rfl rfl rfl rfl rfl rfl rfl rfl rfl rfl

end ChinaPipeline
